import Mathlib

/-!
Shallow embedding of the dependency-graph core of `avocado-build-helper`
(`src/types.rs` and `src/hasher.rs`).

Modelling conventions:
* Rust `HashSet<String>` values are modelled as `List String` used only through
  membership, subset and disjointness, which is all the source uses them for
  (apart from iteration when building diagnostics, where only the collection of
  entries matters, not their order).
* Rust `HashMap<String, (i32, [u8; 32])>` is modelled as an association list
  `List (String × Int × List Nat)`; insertion conses so that the first match is
  the most recent insertion, matching overwrite semantics.
* Machine integers: `i32` is `Int`; `as u16` / `as u32` casts take the value
  modulo `2 ^ 16` / `2 ^ 32` (Lean's `Int.emod` is nonnegative for a positive
  modulus, matching two's-complement truncation).
* Panics (`unwrap`, `expect`) are modelled by `Option`; `Result` by `Except`.
* The SHA-256 compression itself lives in the external `sha2` crate; it is
  modelled as a parameter `sha : List Nat → List Nat` of the hashing
  functions.  The incremental `hasher.update(..)` calls are modelled as
  concatenation of the updated byte strings, applied to `sha` at `finalize`.
* The `CycleError` diagnostic string is modelled structurally as the list of
  `(key, unresolved dependency ids)` pairs from which the source formats its
  message.
-/

/-- `Component` from `src/types.rs` (the `rem : serde_json::Value` open bag and
the short-sha fields are serialization concerns not used by the graph core). -/
structure Component where
  dir : String
  dependencies : List String
  commit_sha : Option String := none
  tree_sha : Option String := none
  deriving Repr, DecidableEq

/-- `Component::depset`: the dependency list viewed as a set (modelled as the
underlying list, used only through membership). -/
def Component.depset (c : Component) : List String :=
  c.dependencies

/-- Lexicographic comparison of character lists by code point (for UTF-8
encoded strings this coincides with Rust's bytewise `Ord` on `String`). -/
def charListLe : List Char → List Char → Bool
  | [], _ => true
  | _ :: _, [] => false
  | a :: as, b :: bs =>
    if a = b then charListLe as bs
    else decide (a.toNat < b.toNat)

/-- Rust's `String` ordering: lexicographic, modelled on the character data. -/
def strLe (a b : String) : Bool :=
  charListLe a.data b.data

/-- `Component::depsorted`: `BinaryHeap::into_sorted_vec` returns the
dependencies sorted ascending in Rust's `String` order.  Rendered as
insertion sort, which computes the same result: the ascending reordering of
the list. -/
def Component.depsorted (c : Component) : List String :=
  c.dependencies.insertionSort (fun a b => strLe a b = true)

/-- The error enum `CustomError` from `src/types.rs`, restricted to the graph
core's variants.  `cycleError` carries the structured diagnostic data. -/
inductive CustomError where
  | missingDepError : List String → CustomError
  | missingComponentError : List String → CustomError
  | cycleError : List (String × List String) → CustomError
  deriving Repr, DecidableEq

instance {ε α : Type} [DecidableEq ε] [DecidableEq α] : DecidableEq (Except ε α) :=
  fun a b =>
    match a, b with
    | .ok x, .ok y =>
      if h : x = y then isTrue (by rw [h]) else
        isFalse (fun hh => h (Except.ok.inj hh))
    | .error x, .error y =>
      if h : x = y then isTrue (by rw [h]) else
        isFalse (fun hh => h (Except.error.inj hh))
    | .ok _, .error _ => isFalse (fun hh => Except.noConfusion hh)
    | .error _, .ok _ => isFalse (fun hh => Except.noConfusion hh)

/-- Value of one hex digit character, as in the `hex` crate. -/
def hexVal (c : Char) : Option Nat :=
  if '0' ≤ c ∧ c ≤ '9' then some (c.toNat - 48)
  else if 'a' ≤ c ∧ c ≤ 'f' then some (c.toNat - 87)
  else if 'A' ≤ c ∧ c ≤ 'F' then some (c.toNat - 55)
  else none

/-- `hex::decode` on a character list: fails on odd length or a non-hex digit;
performs no width check beyond well-formedness. -/
def hexDecodeList : List Char → Option (List Nat)
  | [] => some []
  | [_] => none
  | a :: b :: rest =>
    match hexVal a, hexVal b, hexDecodeList rest with
    | some x, some y, some tl => some ((16 * x + y) :: tl)
    | _, _, _ => none

/-- `hex::decode` on a string. -/
def hexDecode (s : String) : Option (List Nat) :=
  hexDecodeList s.data

/-- One hex digit character (lowercase), as in `hex::encode`. -/
def hexDigit (n : Nat) : Char :=
  if n < 10 then Char.ofNat (48 + n) else Char.ofNat (87 + n)

/-- `hex::encode` of a byte list. -/
def hexEncode (l : List Nat) : String :=
  String.mk (l.foldr (fun b acc => hexDigit (b / 16 % 16) :: hexDigit (b % 16) :: acc) [])

/-- Big-endian bytes of an `i32` value cast `as u16`
(`(v as u16).to_be_bytes()`). -/
def u16be (v : Int) : List Nat :=
  [((v % 65536).toNat) / 256, ((v % 65536).toNat) % 256]

/-- Big-endian bytes of a `usize` value cast `as u32`
(`(i as u32).to_be_bytes()`). -/
def u32be (i : Nat) : List Nat :=
  [i % 4294967296 / 16777216 % 256, i % 4294967296 / 65536 % 256,
   i % 4294967296 / 256 % 256, i % 4294967296 % 256]

/-- `translate` from `src/hasher.rs`: look every id up in the hash map; the
`unwrap` on a missing key is modelled by `none`.  (Named `translateDeps` here
because `translate` is taken by the ambient library.) -/
def translateDeps (inp : List String) (map : List (String × Int × List Nat)) :
    Option (List (Int × List Nat)) :=
  match inp with
  | [] => some []
  | k :: rest =>
    match map.lookup k, translateDeps rest map with
    | some v, some vs => some (v :: vs)
    | _, _ => none

/-- `build_hash` from `src/hasher.rs`: folds over the enumerated dependency
records, accumulating the running maximum depth (starting from `-1`) and the
encoded child data: per record, 4-byte big-endian offset, 2-byte big-endian
depth, the digest bytes, and the end flag (`1` exactly on the last index). -/
def buildHash (deps : List String) (hashes : List (String × Int × List Nat)) :
    Option (Int × List Nat) :=
  match translateDeps deps hashes with
  | none => none
  | some x =>
    some (x.enum.foldl
      (fun acc p =>
        (max acc.1 p.2.1,
         acc.2 ++ u32be p.1 ++ u16be p.2.1 ++ p.2.2 ++
           [if deps.length - 1 = p.1 then (1 : Nat) else 0]))
      (-1, []))

/-- `hash_for_node` from `src/hasher.rs`: digest is the hash of
2-byte big-endian depth, the hex-decoded content identifier, the child data
from `build_hash`, and the node-kind marker byte `2`; the returned depth is
one more than the maximum dependency depth. -/
def hashForNode (sha : List Nat → List Nat) (node_hash : String)
    (deps : List String) (hashes : List (String × Int × List Nat)) :
    Option (Int × List Nat) :=
  match buildHash deps hashes with
  | none => none
  | some dd =>
    match hexDecode node_hash with
    | none => none
    | some root_hash =>
      some (dd.1 + 1, sha (u16be (dd.1 + 1) ++ root_hash ++ dd.2 ++ [2]))

/-- The per-component loop of `run_hasher`: for each component in sorted order,
obtain its content identifier (`hash_for_dir`, modelled by the collaborator
function `ci`), compute `hash_for_node` over its sorted dependencies and the
record map, insert the result under its id, and write back `commit_sha` and
`tree_sha`. -/
def hashAll (sha : List Nat → List Nat) (ci : String → String) :
    List Component → List (String × Int × List Nat) →
    Option (List Component × List (String × Int × List Nat))
  | [], n => some ([], n)
  | comp :: rest, n =>
    match hashForNode sha (ci comp.dir) comp.depsorted n with
    | none => none
    | some res =>
      match hashAll sha ci rest ((comp.dir, res) :: n) with
      | none => none
      | some pr =>
        some ({ comp with commit_sha := some (ci comp.dir),
                          tree_sha := some (hexEncode res.2) } :: pr.1, pr.2)

/-- A working item of the toposort: `(component, key, dependency set)` as built
by `toposort`'s initial map over the input. -/
abbrev Trip := Component × String × List String

/-- One pass of the toposort loop over the working list: items whose
dependencies are all in `seen` are placed (and their key added to `seen`
immediately, visible to later items of the same pass); the rest are kept, in
order, for the next pass.  Returns `(placed, seen, kept)`. -/
def passStep (seen : List String) : List Trip → List Trip × List String × List Trip
  | [] => ([], seen, [])
  | (v, k, d) :: rest =>
    if ∀ x ∈ d, x ∈ seen then
      let r := passStep (k :: seen) rest
      ((v, k, d) :: r.1, r.2.1, r.2.2)
    else
      let r := passStep seen rest
      (r.1, r.2.1, (v, k, d) :: r.2.2)

/-- The pass-based toposort loop from `src/types.rs` (`toposort`): stop with
the accumulated result when the working list is empty; if a full pass places
nothing, fail with the cycle diagnostic listing each kept item's key and its
dependencies not yet in `seen`; otherwise continue with the kept items.

The Rust `loop` terminates because every continuing pass shrinks the working
list; it is rendered here with an explicit pass budget `fuel` (structural
recursion, so that the function computes by reduction).  Every call keeps the
invariant `rem.length ≤ fuel`, under which the budget is never exhausted with
a non-empty working list, so the `fuel = 0` base case coincides with the
empty-working-list exit of the source loop. -/
def toposortGo : Nat → List Trip → List Component → List String →
    Except CustomError (List Component)
  | 0, _, res, _ => .ok res
  | fuel + 1, rem, res, seen =>
    if rem = [] then .ok res
    else
      if (passStep seen rem).1 = [] then
        .error (.cycleError ((passStep seen rem).2.2.map
          (fun u => (u.2.1, u.2.2.filter (fun x => decide (¬ x ∈ seen))))))
      else
        toposortGo fuel (passStep seen rem).2.2
          (res ++ (passStep seen rem).1.map (fun u => u.1)) (passStep seen rem).2.1

/-- `toposort` from `src/types.rs`, specialised (as in `toposort_components`)
to key `Component::dir` and dependency set `Component::depset`. -/
def toposortComponents (inp : List Component) : Except CustomError (List Component) :=
  toposortGo inp.length (inp.map (fun a => (a, a.dir, a.depset))) [] []

/-- The scan loop of `transitive_dependencies` over the reversed topological
order, carrying `(needed, seen, result)`.  A scanned item present in `needed`
is removed from it; its dependencies extend `seen` and `needed`; it is pushed
unless it is a "root" (`is_root` is computed as: its id was not already in
`seen`) and `include_roots` is false.  After each item the loop short-circuits
once `needed` is empty.  Returns the final `(needed, result)`. -/
def tdLoop (include_roots : Bool) :
    List Component → List String → List String → List Component →
    List String × List Component
  | [], needed, _, result => (needed, result)
  | item :: rest, needed, seen, result =>
    let st : List String × List String × List Component :=
      if item.dir ∈ needed then
        (needed.filter (fun x => decide (x ≠ item.dir)) ++ item.depset,
         seen ++ item.depset,
         if item.dir ∈ seen ∨ include_roots = true then result ++ [item] else result)
      else (needed, seen, result)
    if st.1 = [] then (st.1, st.2.2)
    else tdLoop include_roots rest st.1 st.2.1 st.2.2

/-- `transitive_dependencies` from `src/types.rs`: toposort, reverse, scan with
`tdLoop` starting from `needed := dirs`; leftover `needed` ids are a
`MissingDepError`; the naturally consumer-first `result` is reversed unless
`reverse_order` asks for it directly. -/
def transitive_dependencies (inp : List Component) (dirs : List String)
    (include_roots reverse_order : Bool) : Except CustomError (List Component) :=
  match toposortComponents inp with
  | .error e => .error e
  | .ok deps =>
    let r := tdLoop include_roots deps.reverse dirs [] []
    if r.1 = [] then
      if reverse_order then .ok r.2 else .ok r.2.reverse
    else .error (.missingDepError r.1)

/-- The body of `transitive_dependents`' scan over one item, on state
`(roots, seen, result)`: the item's id is removed from `roots`; if its
dependency set is not disjoint from `seen`, its id joins `seen` and it is
pushed; otherwise, if it is itself in `seen` and `include_roots` is set, it is
pushed without extending `seen`. -/
def tdepStep (include_roots : Bool)
    (st : List String × List String × List Component) (item : Component) :
    List String × List String × List Component :=
  let roots := st.1.filter (fun x => decide (x ≠ item.dir))
  if ∃ d ∈ item.depset, d ∈ st.2.1 then
    (roots, item.dir :: st.2.1, st.2.2 ++ [item])
  else if item.dir ∈ st.2.1 ∧ include_roots = true then
    (roots, st.2.1, st.2.2 ++ [item])
  else (roots, st.2.1, st.2.2)

/-- `transitive_dependents` from `src/types.rs`: scan the topological order
with `tdepStep`, starting from `roots := dirs` and `seen := dirs`; leftover
`roots` are a `MissingComponentError`. -/
def transitive_dependents (inp : List Component) (dirs : List String)
    (include_roots : Bool) : Except CustomError (List Component) :=
  match toposortComponents inp with
  | .error e => .error e
  | .ok deps =>
    let st := deps.foldl (tdepStep include_roots) (dirs, dirs, [])
    if st.1 = [] then .ok st.2.2
    else .error (.missingComponentError st.1)

/-- `run_hasher` from `src/hasher.rs`, modulo I/O: toposort the registry
(`hasher.rs` has its own copy of the sort whose cycle case panics, modelled by
`none`) and run the hashing loop over the sorted components with an empty
record map. -/
def runHasher (sha : List Nat → List Nat) (ci : String → String)
    (inp : List Component) :
    Option (List Component × List (String × Int × List Nat)) :=
  match toposortComponents inp with
  | .error _ => none
  | .ok sorted => hashAll sha ci sorted []

/-- Modelled from the spec's words (hashing step 4): the record for the
dependency at 0-based sorted position `i` of `n`: 4-byte big-endian offset
`i`, 2-byte big-endian depth, the digest bytes, and a 1-byte end flag that is
`1` exactly for the last position. -/
def specDepRecord (n i : Nat) (r : Int × List Nat) : List Nat :=
  u32be i ++ u16be r.1 ++ r.2 ++ [if i = n - 1 then 1 else 0]

/-- Modelled from the spec's words (hashing step 4): the dependency-list
encoding is the concatenation of the records of all dependencies in sorted
order. -/
def specDepEncoding (l : List (Int × List Nat)) : List Nat :=
  (l.enum.map (fun p => specDepRecord l.length p.1 p.2)).flatten

/-- A placeholder 32-byte hash function used to instantiate the `sha`
parameter in concrete evaluations (the claims hold for every `sha`). -/
def shaZero : List Nat → List Nat := fun _ => List.replicate 32 0

/-- Example registry component `a : []` from the spec's testable properties. -/
def compA : Component := { dir := "a", dependencies := [] }

/-- Example registry component `b : [a]` from the spec's testable properties. -/
def compB : Component := { dir := "b", dependencies := ["a"] }

/-- Example registry component `c : [a, b]` from the spec's testable
properties (declared here in non-lexicographic order `[b, a]` to exercise
canonicalisation). -/
def compC : Component := { dir := "c", dependencies := ["b", "a"] }

/-- The registry `a : []`, `b : [a]`, `c : [a, b]` from the spec's testable
properties. -/
def exampleRegistry : List Component := [compA, compB, compC]

/-- The component `a : [b]` of the mutual-dependency example. -/
def compCycA : Component := { dir := "a", dependencies := ["b"] }

/-- The component `b : [a]` of the mutual-dependency example. -/
def compCycB : Component := { dir := "b", dependencies := ["a"] }

/-- The component `b : [z]` where `z` is absent from the registry. -/
def compBz : Component := { dir := "b", dependencies := ["z"] }

/-- The dependency-edge relation of a registry: `depRel inp d k` holds when
some component of `inp` has id `k` and lists `d` among its dependencies
(the edge points from the dependency `d` to the dependent `k`). -/
def depRel (inp : List Component) (d k : String) : Prop :=
  ∃ c ∈ inp, c.dir = k ∧ d ∈ c.depset

/-- A list of components is in dependency-first order relative to an already
available id set `seen`: each component's dependencies are all in `seen`
extended with the ids of the components before it. -/
def depFirstFrom (seen : List String) : List Component → Prop
  | [] => True
  | c :: rest => (∀ d ∈ c.depset, d ∈ seen) ∧ depFirstFrom (c.dir :: seen) rest

theorem translateDeps_length :
    ∀ (inp : List String) (map : List (String × Int × List Nat))
      (recs : List (Int × List Nat)),
      translateDeps inp map = some recs → recs.length = inp.length := by
  intro inp
  induction inp with
  | nil =>
    intro map recs h
    cases h
    rfl
  | cons k rest ih =>
    intro map recs h
    unfold translateDeps at h
    cases hl : List.lookup k map <;> rw [hl] at h
    · cases h
    · cases ht : translateDeps rest map <;> rw [ht] at h
      · cases h
      · cases h
        simp [ih map _ ht]

theorem buildHashFold (n : Nat) (l : List (Int × List Nat)) :
    ∀ (i0 : Nat) (d0 : Int) (b0 : List Nat),
      (List.enumFrom i0 l).foldl
        (fun acc p =>
          (max acc.1 p.2.1,
           acc.2 ++ u32be p.1 ++ u16be p.2.1 ++ p.2.2 ++
             [if n - 1 = p.1 then (1 : Nat) else 0])) (d0, b0)
      = ((l.map Prod.fst).foldl max d0,
         b0 ++ ((List.enumFrom i0 l).map (fun p => specDepRecord n p.1 p.2)).flatten) := by
  induction l with
  | nil =>
    intro i0 d0 b0
    simp
  | cons hd tl ih =>
    intro i0 d0 b0
    simp only [List.enumFrom, List.foldl_cons, List.map_cons, List.flatten_cons]
    rw [ih]
    refine Prod.ext rfl ?_
    simp only [specDepRecord, List.append_assoc]
    by_cases hi : i0 = n - 1
    · simp [hi]
    · have hi2 : ¬ n - 1 = i0 := fun hh => hi hh.symm
      simp [hi, hi2]

theorem buildHash_some (deps : List String) (hashes : List (String × Int × List Nat))
    (recs : List (Int × List Nat)) (h : translateDeps deps hashes = some recs) :
    buildHash deps hashes
      = some ((recs.map Prod.fst).foldl max (-1), specDepEncoding recs) := by
  have hlen := translateDeps_length deps hashes recs h
  simp only [buildHash, h, specDepEncoding, List.enum, hlen]
  rw [buildHashFold deps.length recs 0 (-1) []]
  simp

/-- C1: for every node the hasher processes, the digest is the hash of the
2-byte big-endian node depth, the hex-decoded content identifier, the
dependency records (per sorted dependency `i`: 4-byte big-endian offset `i`,
2-byte big-endian depth, the digest bytes, 1-byte end flag set only on the
last), and the fixed node-kind marker byte `2`. -/
theorem digest_byte_layout (sha : List Nat → List Nat) (nh : String)
    (deps : List String) (hashes : List (String × Int × List Nat))
    (dep : Int) (dig ci : List Nat) (recs : List (Int × List Nat))
    (h : hashForNode sha nh deps hashes = some (dep, dig))
    (hci : hexDecode nh = some ci)
    (hrecs : translateDeps deps hashes = some recs) :
    dig = sha (u16be dep ++ ci ++ specDepEncoding recs ++ [2]) := by
  simp only [hashForNode, buildHash_some deps hashes recs hrecs, hci,
    Option.some.injEq, Prod.mk.injEq] at h
  rw [← h.1, ← h.2]

theorem digest_byte_layout_witness :
    hashForNode shaZero "aa" ["a", "b"] [("a", (0, [7])), ("b", (1, [9]))]
        = some (2, List.replicate 32 0) ∧
    hexDecode "aa" = some [170] ∧
    translateDeps ["a", "b"] [("a", (0, [7])), ("b", (1, [9]))]
        = some [(0, [7]), (1, [9])] ∧
    List.replicate 32 0
      = shaZero (u16be 2 ++ [170] ++ specDepEncoding [(0, [7]), (1, [9])] ++ [2]) :=
  ⟨by decide, by decide, by decide,
    digest_byte_layout shaZero "aa" ["a", "b"] [("a", (0, [7])), ("b", (1, [9]))]
      2 (List.replicate 32 0) [170] [(0, [7]), (1, [9])]
      (by decide) (by decide) (by decide)⟩

/-- C4: the depth the hasher records and encodes for a node is 1 plus the
maximum of its dependencies' depths, the maximum of an empty dependency set
being `-1` (so a leaf has depth 0); and on the registry `a : []`, `b : [a]`,
`c : [a, b]` the recorded depths are `a ↦ 0`, `b ↦ 1`, `c ↦ 2` for every
hash function. -/
theorem node_depth_rule (sha : List Nat → List Nat) (nh : String)
    (deps : List String) (hashes : List (String × Int × List Nat))
    (res : Int × List Nat) (recs : List (Int × List Nat))
    (h : hashForNode sha nh deps hashes = some res)
    (hrecs : translateDeps deps hashes = some recs) :
    (res.1 = (recs.map Prod.fst).foldl max (-1) + 1 ∧ (deps = [] → res.1 = 0)) ∧
    ∀ s : List Nat → List Nat,
      (runHasher s (fun _ => "aa") exampleRegistry).map
          (fun p => p.2.map (fun q => (q.1, q.2.1)))
        = some [("c", 2), ("b", 1), ("a", 0)] := by
  refine ⟨?_, fun s => rfl⟩
  simp only [hashForNode, buildHash_some deps hashes recs hrecs] at h
  cases hci : hexDecode nh <;> rw [hci] at h
  · cases h
  · simp only [Option.some.injEq] at h
    have h1 : res.1 = (recs.map Prod.fst).foldl max (-1) + 1 := by rw [← h]
    refine ⟨h1, fun hd => ?_⟩
    subst hd
    cases hrecs
    simpa using h1

theorem node_depth_rule_witness :
    hashForNode shaZero "aa" ["a", "b"] [("a", (0, [7])), ("b", (1, [9]))]
        = some (2, List.replicate 32 0) ∧
    translateDeps ["a", "b"] [("a", (0, [7])), ("b", (1, [9]))]
        = some [(0, [7]), (1, [9])] ∧
    ((((2 : Int), List.replicate 32 0).1
          = (([(0, [7]), (1, [9])] : List (Int × List Nat)).map Prod.fst).foldl max (-1) + 1 ∧
        (["a", "b"] = ([] : List String) → ((2 : Int), List.replicate 32 0).1 = 0)) ∧
      (∀ s : List Nat → List Nat,
        (runHasher s (fun _ => "aa") exampleRegistry).map
            (fun p => p.2.map (fun q => (q.1, q.2.1)))
          = some [("c", 2), ("b", 1), ("a", 0)])) :=
  ⟨by decide, by decide,
    node_depth_rule shaZero "aa" ["a", "b"] [("a", (0, [7])), ("b", (1, [9]))]
      (2, List.replicate 32 0) [(0, [7]), (1, [9])] (by decide) (by decide)⟩

/-- C8 counterexample: `"abcd"` is well-formed hex of the wrong width (it
decodes to 2 bytes, not the fixed 20-byte git object-id width of 40 hex
characters), yet the hasher accepts it and produces a digest instead of
failing. -/
theorem wrong_width_ci_accepted :
    hexDecode "abcd" = some [171, 205] ∧
    (hashForNode shaZero "abcd" [] []).isSome = true ∧
    ¬ "abcd".length = 40 := by
  refine ⟨by decide, by decide, by decide⟩

/-- C8 (amended): the content identifier is hex-decoded before use and a
malformed identifier (odd length or a non-hex digit) makes the node's hash
computation fail; no fixed-width check is performed beyond well-formedness. -/
theorem malformed_ci_fatal (sha : List Nat → List Nat) (nh : String)
    (deps : List String) (hashes : List (String × Int × List Nat))
    (h : hexDecode nh = none) :
    hashForNode sha nh deps hashes = none := by
  cases hb : buildHash deps hashes <;> simp [hashForNode, hb, h]

theorem malformed_ci_fatal_witness :
    hexDecode "zz" = none ∧ hashForNode shaZero "zz" [] [] = none :=
  ⟨by decide, malformed_ci_fatal shaZero "zz" [] [] (by decide)⟩

theorem charListLe_total : ∀ x y : List Char,
    charListLe x y = true ∨ charListLe y x = true := by
  intro x
  induction x with
  | nil => intro y; left; rfl
  | cons a as ih =>
    intro y
    cases y with
    | nil => right; rfl
    | cons b bs =>
      by_cases hab : a = b
      · subst hab
        simp only [charListLe, if_pos rfl]
        exact ih bs
      · simp only [charListLe, if_neg hab, if_neg (Ne.symm hab)]
        rcases Nat.lt_or_ge a.toNat b.toNat with h | h
        · left; exact decide_eq_true h
        · have hne : b.toNat ≠ a.toNat := by
            intro he
            exact hab (Char.ext (UInt32.ext he.symm))
          right
          exact decide_eq_true (Nat.lt_of_le_of_ne h hne)

theorem charListLe_trans : ∀ x y z : List Char,
    charListLe x y = true → charListLe y z = true → charListLe x z = true := by
  intro x
  induction x with
  | nil => intro y z _ _; rfl
  | cons a as ih =>
    intro y z h1 h2
    cases y with
    | nil => simp [charListLe] at h1
    | cons b bs =>
      cases z with
      | nil => simp [charListLe] at h2
      | cons c cs =>
        by_cases hab : a = b
        · subst hab
          simp only [charListLe, if_pos rfl] at h1
          by_cases hbc : a = c
          · subst hbc
            simp only [charListLe, if_pos rfl] at h2 ⊢
            exact ih bs cs h1 h2
          · simp only [charListLe, if_neg hbc] at h2 ⊢
            exact h2
        · simp only [charListLe, if_neg hab] at h1
          have h1' := of_decide_eq_true h1
          by_cases hbc : b = c
          · subst hbc
            simp only [charListLe, if_neg hab]
            exact decide_eq_true h1'
          · simp only [charListLe, if_neg hbc] at h2
            have h2' := of_decide_eq_true h2
            have hlt := Nat.lt_trans h1' h2'
            have hac : a ≠ c := fun he => by
              subst he; exact Nat.lt_irrefl _ hlt
            simp only [charListLe, if_neg hac]
            exact decide_eq_true hlt

theorem charListLe_antisymm : ∀ x y : List Char,
    charListLe x y = true → charListLe y x = true → x = y := by
  intro x
  induction x with
  | nil =>
    intro y h1 h2
    cases y with
    | nil => rfl
    | cons b bs => simp [charListLe] at h2
  | cons a as ih =>
    intro y h1 h2
    cases y with
    | nil => simp [charListLe] at h1
    | cons b bs =>
      by_cases hab : a = b
      · subst hab
        simp only [charListLe, if_pos rfl] at h1 h2
        rw [ih bs h1 h2]
      · simp only [charListLe, if_neg hab, if_neg (Ne.symm hab)] at h1 h2
        exact absurd (Nat.lt_trans (of_decide_eq_true h1) (of_decide_eq_true h2))
          (Nat.lt_irrefl _)

theorem strLe_total (a b : String) : strLe a b = true ∨ strLe b a = true :=
  charListLe_total a.data b.data

theorem strLe_trans (a b c : String) :
    strLe a b = true → strLe b c = true → strLe a c = true :=
  charListLe_trans a.data b.data c.data

theorem strLe_antisymm (a b : String) :
    strLe a b = true → strLe b a = true → a = b := by
  intro h1 h2
  cases a with
  | mk da =>
    cases b with
    | mk db =>
      have : da = db := charListLe_antisymm da db h1 h2
      rw [this]

theorem depsorted_sorted (c : Component) :
    List.Sorted (fun a b : String => strLe a b = true) c.depsorted := by
  haveI : IsTotal String (fun a b => strLe a b = true) := ⟨strLe_total⟩
  haveI : IsTrans String (fun a b => strLe a b = true) := ⟨strLe_trans⟩
  exact List.sorted_insertionSort _ c.dependencies

/-- C3: two components whose declared dependency lists are permutations of one
another canonicalise to the same sorted dependency list, hence the hasher
computes identical digests for them. -/
theorem digest_decl_order_invariant (sha : List Nat → List Nat) (nh : String)
    (hashes : List (String × Int × List Nat)) (c1 c2 : Component)
    (hperm : c1.dependencies.Perm c2.dependencies) :
    c1.depsorted = c2.depsorted ∧
    hashForNode sha nh c1.depsorted hashes
      = hashForNode sha nh c2.depsorted hashes := by
  haveI : IsAntisymm String (fun a b => strLe a b = true) := ⟨strLe_antisymm⟩
  have hs : c1.depsorted = c2.depsorted := by
    refine List.eq_of_perm_of_sorted ?_ (depsorted_sorted c1) (depsorted_sorted c2)
    exact ((List.perm_insertionSort _ _).trans hperm).trans
      (List.perm_insertionSort _ _).symm
  exact ⟨hs, by rw [hs]⟩

theorem digest_decl_order_invariant_witness :
    (List.Perm ["b", "a"] ["a", "b"]) ∧
    (Component.depsorted { dir := "x", dependencies := ["b", "a"] }
        = Component.depsorted { dir := "x", dependencies := ["a", "b"] } ∧
      hashForNode shaZero "aa"
          (Component.depsorted { dir := "x", dependencies := ["b", "a"] }) []
        = hashForNode shaZero "aa"
            (Component.depsorted { dir := "x", dependencies := ["a", "b"] }) []) :=
  ⟨by decide,
    digest_decl_order_invariant shaZero "aa" []
      { dir := "x", dependencies := ["b", "a"] }
      { dir := "x", dependencies := ["a", "b"] } (by decide)⟩

/-- C10: on a registry that topologically sorts, querying transitive
dependencies of the empty root set succeeds with the empty list. -/
theorem empty_roots_query (inp out : List Component) (ir rev : Bool)
    (h : toposortComponents inp = .ok out) :
    transitive_dependencies inp [] ir rev = .ok [] := by
  simp only [transitive_dependencies, h]
  cases hr : out.reverse with
  | nil => cases rev <;> simp [tdLoop]
  | cons a l => cases rev <;> simp [tdLoop]

theorem empty_roots_query_witness :
    toposortComponents exampleRegistry = Except.ok exampleRegistry ∧
    transitive_dependencies exampleRegistry [] true false = Except.ok [] :=
  ⟨by decide, empty_roots_query exampleRegistry exampleRegistry true false (by decide)⟩

theorem passStep_length (seen : List String) (rem : List Trip) :
    (passStep seen rem).1.length + (passStep seen rem).2.2.length = rem.length := by
  induction rem generalizing seen with
  | nil => rfl
  | cons t rest ih =>
    obtain ⟨v, k, d⟩ := t
    by_cases hc : ∀ x ∈ d, x ∈ seen
    · have := ih (k :: seen)
      simp only [passStep, if_pos hc, List.length_cons]
      omega
    · have := ih seen
      simp only [passStep, if_neg hc, List.length_cons]
      omega

theorem passStep_perm (seen : List String) (rem : List Trip) :
    rem.Perm ((passStep seen rem).1 ++ (passStep seen rem).2.2) := by
  induction rem generalizing seen with
  | nil => rfl
  | cons t rest ih =>
    obtain ⟨v, k, d⟩ := t
    by_cases hc : ∀ x ∈ d, x ∈ seen
    · simp only [passStep, if_pos hc, List.cons_append]
      exact (ih (k :: seen)).cons _
    · simp only [passStep, if_neg hc]
      exact ((ih seen).cons _).trans List.perm_middle.symm

theorem passStep_seen_mem (seen : List String) (rem : List Trip) (x : String) :
    x ∈ (passStep seen rem).2.1 ↔
      x ∈ (passStep seen rem).1.map (fun u => u.2.1) ∨ x ∈ seen := by
  induction rem generalizing seen with
  | nil => simp [passStep]
  | cons t rest ih =>
    obtain ⟨v, k, d⟩ := t
    by_cases hc : ∀ x ∈ d, x ∈ seen
    · simp only [passStep, if_pos hc, List.map_cons, List.mem_cons]
      rw [ih (k :: seen)]
      simp only [List.mem_cons]
      tauto
    · simp only [passStep, if_neg hc]
      exact ih seen

theorem passStep_placed_depFirst (seen : List String) (rem : List Trip)
    (hcons : ∀ t ∈ rem, t.2.1 = t.1.dir ∧ t.2.2 = t.1.depset) :
    depFirstFrom seen ((passStep seen rem).1.map (fun u => u.1)) := by
  induction rem generalizing seen with
  | nil => trivial
  | cons t rest ih =>
    obtain ⟨v, k, d⟩ := t
    have hhead := hcons (v, k, d) (List.mem_cons_self _ _)
    have hrest : ∀ t ∈ rest, t.2.1 = t.1.dir ∧ t.2.2 = t.1.depset :=
      fun t ht => hcons t (List.mem_cons_of_mem _ ht)
    have hk : k = v.dir := hhead.1
    have hd : d = v.depset := hhead.2
    by_cases hc : ∀ x ∈ d, x ∈ seen
    · simp only [passStep, if_pos hc, List.map_cons]
      refine ⟨fun x hx => hc x (by rw [hd]; exact hx), ?_⟩
      rw [← hk]
      exact ih (k :: seen) hrest
    · simp only [passStep, if_neg hc]
      exact ih seen hrest

theorem passStep_progress (seen : List String) (rem : List Trip)
    (h : ∃ t ∈ rem, ∀ x ∈ t.2.2, x ∈ seen) :
    (passStep seen rem).1 ≠ [] := by
  induction rem generalizing seen with
  | nil => simp at h
  | cons t rest ih =>
    obtain ⟨v, k, d⟩ := t
    by_cases hc : ∀ x ∈ d, x ∈ seen
    · simp [passStep, if_pos hc]
    · simp only [passStep, if_neg hc]
      obtain ⟨u, hu, hall⟩ := h
      rcases List.mem_cons.mp hu with he | hm
      · exact absurd (fun x hx => hall x (by rw [he]; exact hx)) hc
      · exact ih seen ⟨u, hm, hall⟩

theorem passStep_inactive (seen : List String) (rem : List Trip)
    (h : (passStep seen rem).1 = []) :
    (passStep seen rem).2.2 = rem ∧ (passStep seen rem).2.1 = seen := by
  induction rem generalizing seen with
  | nil => exact ⟨rfl, rfl⟩
  | cons t rest ih =>
    obtain ⟨v, k, d⟩ := t
    by_cases hc : ∀ x ∈ d, x ∈ seen
    · simp [passStep, if_pos hc] at h
    · simp only [passStep, if_neg hc] at h ⊢
      obtain ⟨h1, h2⟩ := ih seen h
      exact ⟨by rw [h1], h2⟩

theorem depFirstFrom_mono (s1 s2 : List String) (l : List Component)
    (hsub : ∀ x ∈ s1, x ∈ s2) (h : depFirstFrom s1 l) : depFirstFrom s2 l := by
  induction l generalizing s1 s2 with
  | nil => trivial
  | cons c rest ih =>
    obtain ⟨hc, hrest⟩ := h
    refine ⟨fun x hx => hsub x (hc x hx), ?_⟩
    refine ih (c.dir :: s1) (c.dir :: s2) ?_ hrest
    intro x hx
    rcases List.mem_cons.mp hx with he | hm
    · exact List.mem_cons.mpr (Or.inl he)
    · exact List.mem_cons.mpr (Or.inr (hsub x hm))

theorem depFirstFrom_append (l1 l2 : List Component) (s s2 : List String)
    (h1 : depFirstFrom s l1) (h2 : depFirstFrom s2 l2)
    (hsub : ∀ x ∈ s2, x ∈ l1.map Component.dir ∨ x ∈ s) :
    depFirstFrom s (l1 ++ l2) := by
  induction l1 generalizing s with
  | nil =>
    refine depFirstFrom_mono s2 s l2 ?_ h2
    intro x hx
    rcases hsub x hx with hm | hm
    · simp at hm
    · exact hm
  | cons c l1' ih =>
    obtain ⟨hc, hrest⟩ := h1
    refine ⟨hc, ?_⟩
    refine ih (c.dir :: s) hrest ?_
    intro x hx
    rcases hsub x hx with hm | hm
    · rcases (by simpa using hm : x = c.dir ∨ ∃ a ∈ l1', a.dir = x) with he | ⟨a, ha, hax⟩
      · exact Or.inr (List.mem_cons.mpr (Or.inl he))
      · exact Or.inl (List.mem_map.mpr ⟨a, ha, hax⟩)
    · exact Or.inr (List.mem_cons.mpr (Or.inr hm))

theorem depFirstFrom_take (l : List Component) (s : List String)
    (h : depFirstFrom s l) :
    ∀ (i : Nat) (hi : i < l.length), ∀ d ∈ (l.get ⟨i, hi⟩).depset,
      d ∈ s ∨ d ∈ (l.take i).map Component.dir := by
  induction l generalizing s with
  | nil => intro i hi; simp at hi
  | cons c rest ih =>
    obtain ⟨hc, hrest⟩ := h
    intro i hi d hd
    cases i with
    | zero => exact Or.inl (hc d hd)
    | succ i =>
      rcases ih (c.dir :: s) hrest i (by simpa using hi) d hd with hm | hm
      · rcases List.mem_cons.mp hm with he | hm'
        · exact Or.inr (by simp [he])
        · exact Or.inl hm'
      · refine Or.inr ?_
        simp only [List.take_succ_cons, List.map_cons, List.mem_cons]
        exact Or.inr hm

theorem toposortGo_ok (fuel : Nat) :
    ∀ (rem : List Trip) (res : List Component) (seen : List String)
      (out : List Component),
      rem.length ≤ fuel →
      toposortGo fuel rem res seen = .ok out →
      (∀ t ∈ rem, t.2.1 = t.1.dir ∧ t.2.2 = t.1.depset) →
      (∀ x, x ∈ seen ↔ x ∈ res.map Component.dir) →
      depFirstFrom [] res →
      out.Perm (res ++ rem.map (fun t => t.1)) ∧ depFirstFrom [] out := by
  induction fuel with
  | zero =>
    intro rem res seen out hf h hcons hseen hdf
    have hnil : rem = [] := List.eq_nil_of_length_eq_zero (Nat.le_zero.mp hf)
    subst hnil
    cases h
    exact ⟨by simp, hdf⟩
  | succ fuel ih =>
    intro rem res seen out hf h hcons hseen hdf
    by_cases hrem : rem = []
    · subst hrem
      cases h
      exact ⟨by simp, hdf⟩
    · rw [toposortGo.eq_2, if_neg hrem] at h
      by_cases hp : (passStep seen rem).1 = []
      · rw [if_pos hp] at h
        cases h
      · rw [if_neg hp] at h
        have hlen := passStep_length seen rem
        have hperm := passStep_perm seen rem
        have hfn : (passStep seen rem).2.2.length ≤ fuel := by
          have hpos : 0 < (passStep seen rem).1.length := List.length_pos.mpr hp
          omega
        have hmemP : ∀ t ∈ (passStep seen rem).1, t ∈ rem :=
          fun t ht => hperm.mem_iff.mpr (List.mem_append_left _ ht)
        have hmemN : ∀ t ∈ (passStep seen rem).2.2, t ∈ rem :=
          fun t ht => hperm.mem_iff.mpr (List.mem_append_right _ ht)
        have hconsP : ∀ t ∈ (passStep seen rem).1, t.2.1 = t.1.dir ∧ t.2.2 = t.1.depset :=
          fun t ht => hcons t (hmemP t ht)
        have hconsN : ∀ t ∈ (passStep seen rem).2.2, t.2.1 = t.1.dir ∧ t.2.2 = t.1.depset :=
          fun t ht => hcons t (hmemN t ht)
        have hkeys : (passStep seen rem).1.map (fun u => u.2.1)
            = (passStep seen rem).1.map (fun u => u.1.dir) :=
          List.map_congr_left (fun t ht => (hconsP t ht).1)
        have hseen' : ∀ x, x ∈ (passStep seen rem).2.1 ↔
            x ∈ (res ++ (passStep seen rem).1.map (fun u => u.1)).map Component.dir := by
          intro x
          rw [passStep_seen_mem, hkeys]
          simp only [List.map_append, List.mem_append, List.map_map, hseen x]
          rw [Function.comp_def]
          tauto
        have hdf' : depFirstFrom [] (res ++ (passStep seen rem).1.map (fun u => u.1)) := by
          refine depFirstFrom_append res _ [] seen hdf
            (passStep_placed_depFirst seen rem hcons) ?_
          intro x hx
          exact Or.inl ((hseen x).mp hx)
        obtain ⟨hperm', hdf''⟩ := ih _ _ _ _ hfn h hconsN hseen' hdf'
        refine ⟨hperm'.trans ?_, hdf''⟩
        rw [List.append_assoc]
        refine (List.perm_append_left_iff res).mpr ?_
        have hmapped := hperm.map (fun t => t.1)
        rw [List.map_append] at hmapped
        exact hmapped.symm

theorem toposortGo_total (inp : List Component) (hwf : WellFounded (depRel inp))
    (hclosed : ∀ c ∈ inp, ∀ d ∈ c.depset, d ∈ inp.map Component.dir) (fuel : Nat) :
    ∀ (rem : List Trip) (res : List Component) (seen : List String),
      rem.length ≤ fuel →
      (∀ t ∈ rem, t.2.1 = t.1.dir ∧ t.2.2 = t.1.depset) →
      inp.Perm (res ++ rem.map (fun t => t.1)) →
      (∀ x, x ∈ seen ↔ x ∈ res.map Component.dir) →
      ∃ out, toposortGo fuel rem res seen = .ok out := by
  induction fuel with
  | zero =>
    intro rem res seen _ _ _ _
    exact ⟨res, rfl⟩
  | succ fuel ih =>
    intro rem res seen hf hcons hperm hseen
    by_cases hrem : rem = []
    · subst hrem
      exact ⟨res, by rw [toposortGo.eq_2, if_pos rfl]⟩
    · have hS : {k | k ∈ rem.map (fun t => t.2.1)}.Nonempty := by
        cases rem with
        | nil => exact absurd rfl hrem
        | cons t ts => exact ⟨t.2.1, by simp⟩
      obtain ⟨m, hmS, hmin⟩ := hwf.has_min _ hS
      obtain ⟨t, htrem, htm⟩ := List.mem_map.mp hmS
      have htc := hcons t htrem
      have htinp : t.1 ∈ inp :=
        hperm.mem_iff.mpr (List.mem_append_right _ (List.mem_map.mpr ⟨t, htrem, rfl⟩))
      have hdeps : ∀ x ∈ t.2.2, x ∈ seen := by
        intro x hx
        have hxdep : x ∈ t.1.depset := by rw [← htc.2]; exact hx
        have hrel : depRel inp x m := ⟨t.1, htinp, by rw [← htc.1]; exact htm, hxdep⟩
        have hxnotrem : ¬ x ∈ {k | k ∈ rem.map (fun t => t.2.1)} :=
          fun hxS => hmin x hxS hrel
        have hxdirs : x ∈ inp.map Component.dir := hclosed t.1 htinp x hxdep
        have hmapped := hperm.map Component.dir
        rw [List.map_append] at hmapped
        rcases List.mem_append.mp (hmapped.mem_iff.mp hxdirs) with hres | hrem'
        · exact (hseen x).mpr hres
        · exfalso
          apply hxnotrem
          simp only [Set.mem_setOf_eq]
          rw [List.map_map] at hrem'
          obtain ⟨u, hu, hux⟩ := List.mem_map.mp hrem'
          exact List.mem_map.mpr ⟨u, hu, by rw [(hcons u hu).1]; exact hux⟩
      have hp : (passStep seen rem).1 ≠ [] := passStep_progress seen rem ⟨t, htrem, hdeps⟩
      have hlen := passStep_length seen rem
      have hperm2 := passStep_perm seen rem
      have hfn : (passStep seen rem).2.2.length ≤ fuel := by
        have hpos : 0 < (passStep seen rem).1.length := List.length_pos.mpr hp
        omega
      have hmemP : ∀ u ∈ (passStep seen rem).1, u ∈ rem :=
        fun u hu => hperm2.mem_iff.mpr (List.mem_append_left _ hu)
      have hmemN : ∀ u ∈ (passStep seen rem).2.2, u ∈ rem :=
        fun u hu => hperm2.mem_iff.mpr (List.mem_append_right _ hu)
      have hconsP : ∀ u ∈ (passStep seen rem).1, u.2.1 = u.1.dir ∧ u.2.2 = u.1.depset :=
        fun u hu => hcons u (hmemP u hu)
      have hconsN : ∀ u ∈ (passStep seen rem).2.2, u.2.1 = u.1.dir ∧ u.2.2 = u.1.depset :=
        fun u hu => hcons u (hmemN u hu)
      have hkeys : (passStep seen rem).1.map (fun u => u.2.1)
          = (passStep seen rem).1.map (fun u => u.1.dir) :=
        List.map_congr_left (fun u hu => (hconsP u hu).1)
      have hstep := hperm2.map (fun u => u.1)
      rw [List.map_append] at hstep
      have hperm' : inp.Perm ((res ++ (passStep seen rem).1.map (fun u => u.1))
          ++ (passStep seen rem).2.2.map (fun u => u.1)) := by
        rw [List.append_assoc]
        exact hperm.trans ((List.perm_append_left_iff res).mpr hstep)
      have hseen' : ∀ x, x ∈ (passStep seen rem).2.1 ↔
          x ∈ (res ++ (passStep seen rem).1.map (fun u => u.1)).map Component.dir := by
        intro x
        rw [passStep_seen_mem, hkeys]
        simp only [List.map_append, List.mem_append, List.map_map, hseen x]
        rw [Function.comp_def]
        tauto
      obtain ⟨out, hout⟩ := ih _ _ _ hfn hconsN hperm' hseen'
      exact ⟨out, by rw [toposortGo.eq_2, if_neg hrem, if_neg hp]; exact hout⟩

theorem toposortGo_error (fuel : Nat) :
    ∀ (rem : List Trip) (res : List Component) (seen : List String) (e : CustomError),
      rem.length ≤ fuel →
      toposortGo fuel rem res seen = .error e →
      (∀ t ∈ rem, t.2.1 = t.1.dir ∧ t.2.2 = t.1.depset) →
      (∀ x, x ∈ seen ↔ x ∈ res.map Component.dir) →
      ∃ (sorted : List Component) (unplaced : List Trip),
        (res ++ rem.map (fun t => t.1)).Perm (sorted ++ unplaced.map (fun t => t.1)) ∧
        (∀ t ∈ unplaced, t ∈ rem) ∧
        unplaced ≠ [] ∧
        (∀ t ∈ unplaced, ∃ x ∈ t.2.2, ¬ x ∈ sorted.map Component.dir) ∧
        e = .cycleError (unplaced.map
          (fun u => (u.2.1,
            u.2.2.filter (fun x => decide (¬ x ∈ sorted.map Component.dir))))) := by
  induction fuel with
  | zero =>
    intro rem res seen e hf h hcons hseen
    have hnil : rem = [] := List.eq_nil_of_length_eq_zero (Nat.le_zero.mp hf)
    subst hnil
    cases h
  | succ fuel ih =>
    intro rem res seen e hf h hcons hseen
    by_cases hrem : rem = []
    · subst hrem
      cases h
    · rw [toposortGo.eq_2, if_neg hrem] at h
      by_cases hp : (passStep seen rem).1 = []
      · rw [if_pos hp] at h
        obtain ⟨hn, _⟩ := passStep_inactive seen rem hp
        have he : e = .cycleError (rem.map
            (fun u => (u.2.1, u.2.2.filter (fun x => decide (¬ x ∈ seen))))) := by
          rw [← Except.error.inj h, hn]
        refine ⟨res, rem, List.Perm.refl _, fun t ht => ht, hrem, ?_, ?_⟩
        · intro t ht
          by_contra hall
          push_neg at hall
          exact (passStep_progress seen rem
            ⟨t, ht, fun x hx => (hseen x).mpr (hall x hx)⟩) hp
        · rw [he]
          congr 1
          refine List.map_congr_left ?_
          intro t _
          refine congrArg _ ?_
          refine List.filter_congr ?_
          intro x _
          simp [hseen x]
      · rw [if_neg hp] at h
        have hlen := passStep_length seen rem
        have hperm2 := passStep_perm seen rem
        have hfn : (passStep seen rem).2.2.length ≤ fuel := by
          have hpos : 0 < (passStep seen rem).1.length := List.length_pos.mpr hp
          omega
        have hmemP : ∀ u ∈ (passStep seen rem).1, u ∈ rem :=
          fun u hu => hperm2.mem_iff.mpr (List.mem_append_left _ hu)
        have hmemN : ∀ u ∈ (passStep seen rem).2.2, u ∈ rem :=
          fun u hu => hperm2.mem_iff.mpr (List.mem_append_right _ hu)
        have hconsP : ∀ u ∈ (passStep seen rem).1, u.2.1 = u.1.dir ∧ u.2.2 = u.1.depset :=
          fun u hu => hcons u (hmemP u hu)
        have hconsN : ∀ u ∈ (passStep seen rem).2.2, u.2.1 = u.1.dir ∧ u.2.2 = u.1.depset :=
          fun u hu => hcons u (hmemN u hu)
        have hkeys : (passStep seen rem).1.map (fun u => u.2.1)
            = (passStep seen rem).1.map (fun u => u.1.dir) :=
          List.map_congr_left (fun u hu => (hconsP u hu).1)
        have hstep := hperm2.map (fun u => u.1)
        rw [List.map_append] at hstep
        have hseen' : ∀ x, x ∈ (passStep seen rem).2.1 ↔
            x ∈ (res ++ (passStep seen rem).1.map (fun u => u.1)).map Component.dir := by
          intro x
          rw [passStep_seen_mem, hkeys]
          simp only [List.map_append, List.mem_append, List.map_map, hseen x]
          rw [Function.comp_def]
          tauto
        obtain ⟨sorted, unplaced, hperm', hsub, hne, hunres, he⟩ :=
          ih _ _ _ _ hfn h hconsN hseen'
        refine ⟨sorted, unplaced, ?_, fun t ht => hmemN t (hsub t ht), hne, hunres, he⟩
        refine List.Perm.trans ?_ hperm'
        rw [List.append_assoc]
        exact (List.perm_append_left_iff res).mpr hstep

theorem trip_cons (inp : List Component) :
    ∀ t ∈ inp.map (fun a => (a, a.dir, a.depset)),
      t.2.1 = t.1.dir ∧ t.2.2 = t.1.depset := by
  intro t ht
  obtain ⟨a, _, rfl⟩ := List.mem_map.mp ht
  exact ⟨rfl, rfl⟩

theorem toposortComponents_ok (inp out : List Component)
    (h : toposortComponents inp = .ok out) :
    out.Perm inp ∧ depFirstFrom [] out := by
  obtain ⟨hperm, hdf⟩ := toposortGo_ok inp.length _ [] [] out (by simp) h
    (trip_cons inp) (by simp) trivial
  refine ⟨hperm.trans ?_, hdf⟩
  simp [List.map_map, Function.comp_def]

theorem toposort_ok_no_cycle (inp out : List Component)
    (hnodup : (inp.map Component.dir).Nodup)
    (h : toposortComponents inp = .ok out) :
    ∀ k, ¬ Relation.TransGen (depRel inp) k k := by
  obtain ⟨hperm, hdf⟩ := toposortComponents_ok inp out h
  have hnodup2 : (out.map Component.dir).Nodup :=
    ((hperm.map Component.dir).nodup_iff).mpr hnodup
  have hedge : ∀ a b, depRel inp a b →
      (out.map Component.dir).indexOf a < (out.map Component.dir).indexOf b := by
    rintro a b ⟨c, hcinp, hcdir, hcdep⟩
    have hcout : c ∈ out := hperm.mem_iff.mpr hcinp
    obtain ⟨i, hi⟩ := List.mem_iff_get.mp hcout
    have htake := depFirstFrom_take out [] hdf i i.isLt a (by rw [hi]; exact hcdep)
    rcases htake with hm | hm
    · simp at hm
    · obtain ⟨k, hk, hkeq⟩ := List.mem_iff_getElem.mp hm
      have hki : k < (i : Nat) := by
        simp only [List.length_map, List.length_take] at hk
        omega
      have hkout : k < out.length := lt_trans hki i.isLt
      have hklen : k < (out.map Component.dir).length := by
        simpa using hkout
      rw [List.getElem_map, List.getElem_take] at hkeq
      have hkeq2 : (out.map Component.dir).get ⟨k, hklen⟩ = a := by
        rw [List.get_eq_getElem, List.getElem_map]
        exact hkeq
      have hina : a ∈ out.map Component.dir := by
        rw [← hkeq2]
        exact List.get_mem _ _ _
      have hidxa : (out.map Component.dir).indexOf a = k := by
        have h1 : (out.map Component.dir).get ⟨k, hklen⟩ = a := hkeq2
        have h2 : (out.map Component.dir).get
            ⟨(out.map Component.dir).indexOf a, List.indexOf_lt_length.mpr hina⟩ = a :=
          List.indexOf_get _
        have := (List.Nodup.get_inj_iff hnodup2).mp (h2.trans h1.symm)
        exact (Fin.mk.injEq _ _ _ _ ▸ this)
      have hib : (out.map Component.dir).get ⟨i, by simpa using i.isLt⟩ = b := by
        rw [List.get_map]
        rw [show out.get ⟨(i : Nat), by simpa using i.isLt⟩ = c from hi]
        exact hcdir
      have hinb : b ∈ out.map Component.dir := by
        rw [← hib]
        exact List.get_mem _ _ _
      have hidxb : (out.map Component.dir).indexOf b = (i : Nat) := by
        have h2 : (out.map Component.dir).get
            ⟨(out.map Component.dir).indexOf b, List.indexOf_lt_length.mpr hinb⟩ = b :=
          List.indexOf_get _
        have := (List.Nodup.get_inj_iff hnodup2).mp (h2.trans hib.symm)
        exact (Fin.mk.injEq _ _ _ _ ▸ this)
      rw [hidxa, hidxb]
      exact hki
  intro k hk
  have mono : ∀ a b, Relation.TransGen (depRel inp) a b →
      (out.map Component.dir).indexOf a < (out.map Component.dir).indexOf b := by
    intro a b hab
    induction hab with
    | single h1 => exact hedge _ _ h1
    | tail _ h2 ih => exact lt_trans ih (hedge _ _ h2)
  exact lt_irrefl _ (mono k k hk)

/-- C2: on a registry with unique ids, whose dependency ids all exist, and
whose dependency relation is well-founded (acyclic), the topological sort
succeeds with a permutation of the input in which every dependency is placed
strictly before every component that lists it. -/
theorem toposort_sound (inp : List Component)
    (hnodup : (inp.map Component.dir).Nodup)
    (hclosed : ∀ c ∈ inp, ∀ d ∈ c.depset, d ∈ inp.map Component.dir)
    (hwf : WellFounded (depRel inp)) :
    ∃ out, toposortComponents inp = .ok out ∧ out.Perm inp ∧
      ∀ i j : Fin out.length,
        (out.get j).dir ∈ (out.get i).depset → (j : Nat) < (i : Nat) := by
  obtain ⟨out, hout⟩ := toposortGo_total inp hwf hclosed inp.length _ [] []
    (by simp) (trip_cons inp) (by simp [List.map_map, Function.comp_def]) (by simp)
  obtain ⟨hperm, hdf⟩ := toposortComponents_ok inp out hout
  have hnodup2 : (out.map Component.dir).Nodup :=
    ((hperm.map Component.dir).nodup_iff).mpr hnodup
  refine ⟨out, hout, hperm, ?_⟩
  intro i j hij
  have htake := depFirstFrom_take out [] hdf i i.isLt (out.get j).dir hij
  rcases htake with hm | hm
  · simp at hm
  · obtain ⟨k, hk, hkeq⟩ := List.mem_iff_getElem.mp hm
    have hki : k < (i : Nat) := by
      simp only [List.length_map, List.length_take] at hk
      omega
    have hkout : k < out.length := lt_trans hki i.isLt
    rw [List.getElem_map, List.getElem_take] at hkeq
    -- two positions with the same dir: k and j
    have hkj : k = (j : Nat) := by
      have h1 : (out.map Component.dir).get ⟨k, by simpa using hkout⟩
          = (out.get j).dir := by
        rw [List.get_eq_getElem, List.getElem_map]
        exact hkeq
      have h2 : (out.map Component.dir).get ⟨(j : Nat), by simpa using j.isLt⟩
          = (out.get j).dir := by
        rw [List.get_eq_getElem, List.getElem_map]
        rfl
      have := (List.Nodup.get_inj_iff hnodup2).mp (h1.trans h2.symm)
      exact Fin.mk.injEq _ _ _ _ ▸ this
    omega

theorem toposort_sound_witness :
    (([compA, compB].map Component.dir).Nodup ∧
      (∀ c ∈ [compA, compB], ∀ d ∈ c.depset, d ∈ [compA, compB].map Component.dir) ∧
      WellFounded (depRel [compA, compB])) ∧
    (∃ out, toposortComponents [compA, compB] = .ok out ∧ out.Perm [compA, compB] ∧
      ∀ i j : Fin out.length,
        (out.get j).dir ∈ (out.get i).depset → (j : Nat) < (i : Nat)) := by
  have hwf : WellFounded (depRel [compA, compB]) := by
    have hsub : Subrelation (depRel [compA, compB])
        (InvImage (· < ·) (fun s : String => if s = "b" then 1 else 0)) := by
      intro x y hxy
      obtain ⟨c, hc, hdir, hdep⟩ := hxy
      rcases (by simpa using hc : c = compA ∨ c = compB) with he | he
      · subst he
        simp [compA, Component.depset] at hdep
      · subst he
        simp only [compB, Component.depset] at hdep
        have hx : x = "a" := by simpa using hdep
        subst hx
        subst hdir
        simp [InvImage, compB]
    exact Subrelation.wf hsub (InvImage.wf _ (Nat.lt_wfRel.wf))
  exact ⟨⟨by decide, by decide, hwf⟩,
    toposort_sound [compA, compB] (by decide) (by decide) hwf⟩

/-- C6: on a registry with unique ids whose dependency relation has a cycle,
the topological sort fails with a `CycleError` whose diagnostic lists every
still-unplaced component together with exactly its dependencies that are not
among the placed ids — not just one participant. -/
theorem toposort_cycle_diag (inp : List Component)
    (hnodup : (inp.map Component.dir).Nodup)
    (hcyc : ∃ k, Relation.TransGen (depRel inp) k k) :
    ∃ (diag : List (String × List String)) (sorted unplaced : List Component),
      toposortComponents inp = .error (.cycleError diag) ∧
      inp.Perm (sorted ++ unplaced) ∧
      unplaced ≠ [] ∧
      (∀ c ∈ unplaced, ∃ x ∈ c.depset, ¬ x ∈ sorted.map Component.dir) ∧
      diag = unplaced.map (fun c => (c.dir,
        c.depset.filter (fun x => decide (¬ x ∈ sorted.map Component.dir)))) := by
  obtain ⟨k, hk⟩ := hcyc
  cases hres : toposortComponents inp with
  | ok out => exact absurd hk (toposort_ok_no_cycle inp out hnodup hres _)
  | error e =>
    obtain ⟨sorted, unplacedT, hperm, hsub, hne, hunres, he⟩ :=
      toposortGo_error inp.length _ [] [] e (by simp) hres (trip_cons inp) (by simp)
    have hconsU : ∀ t ∈ unplacedT, t.2.1 = t.1.dir ∧ t.2.2 = t.1.depset :=
      fun t ht => trip_cons inp t (hsub t ht)
    refine ⟨unplacedT.map (fun u => (u.2.1,
        u.2.2.filter (fun x => decide (¬ x ∈ sorted.map Component.dir)))),
      sorted, unplacedT.map (fun t => t.1), ?_, ?_, ?_, ?_, ?_⟩
    · rw [he]
    · have hperm2 : inp.Perm (sorted ++ unplacedT.map (fun t => t.1)) := by
        refine List.Perm.trans ?_ hperm
        simp [List.map_map, Function.comp_def]
      exact hperm2
    · intro hmap
      exact hne (List.map_eq_nil_iff.mp hmap)
    · intro c hc
      obtain ⟨t, ht, rfl⟩ := List.mem_map.mp hc
      obtain ⟨x, hx, hxn⟩ := hunres t ht
      refine ⟨x, ?_, hxn⟩
      rw [← (hconsU t ht).2]
      exact hx
    · rw [List.map_map]
      refine List.map_congr_left ?_
      intro t ht
      obtain ⟨h1, h2⟩ := hconsU t ht
      simp only [Function.comp_apply]
      rw [h1, h2]

theorem toposort_cycle_diag_witness :
    (([compCycA, compCycB].map Component.dir).Nodup ∧
      (∃ k, Relation.TransGen (depRel [compCycA, compCycB]) k k)) ∧
    (∃ (diag : List (String × List String)) (sorted unplaced : List Component),
      toposortComponents [compCycA, compCycB] = .error (.cycleError diag) ∧
      [compCycA, compCycB].Perm (sorted ++ unplaced) ∧
      unplaced ≠ [] ∧
      (∀ c ∈ unplaced, ∃ x ∈ c.depset, ¬ x ∈ sorted.map Component.dir) ∧
      diag = unplaced.map (fun c => (c.dir,
        c.depset.filter (fun x => decide (¬ x ∈ sorted.map Component.dir))))) := by
  have hedge1 : depRel [compCycA, compCycB] "a" "b" :=
    ⟨compCycB, by simp, rfl, by simp [compCycB, Component.depset]⟩
  have hedge2 : depRel [compCycA, compCycB] "b" "a" :=
    ⟨compCycA, by simp, rfl, by simp [compCycA, Component.depset]⟩
  have hcyc : ∃ k, Relation.TransGen (depRel [compCycA, compCycB]) k k :=
    ⟨"a", Relation.TransGen.head hedge1 (Relation.TransGen.single hedge2)⟩
  exact ⟨⟨by decide, hcyc⟩,
    toposort_cycle_diag [compCycA, compCycB] (by decide) hcyc⟩

theorem tdLoop_false_mem (inp : List Component) :
    ∀ (l : List Component) (needed seen : List String) (result : List Component),
      (∀ i ∈ l, i ∈ inp) →
      (∀ x ∈ seen, ∃ p ∈ inp, x ∈ p.depset) →
      (∀ c ∈ result, ∃ p ∈ inp, c.dir ∈ p.depset) →
      ∀ c ∈ (tdLoop false l needed seen result).2, ∃ p ∈ inp, c.dir ∈ p.depset := by
  intro l
  induction l with
  | nil =>
    intro needed seen result _ _ hres c hc
    exact hres c hc
  | cons item rest ih =>
    intro needed seen result hl hseen hres c hc
    have hlrest : ∀ i ∈ rest, i ∈ inp :=
      fun i hi => hl i (List.mem_cons_of_mem _ hi)
    have hitem : item ∈ inp := hl item (List.mem_cons_self _ _)
    simp only [tdLoop] at hc
    by_cases hn : item.dir ∈ needed
    · rw [if_pos hn] at hc
      have hseen' : ∀ x ∈ seen ++ item.depset, ∃ p ∈ inp, x ∈ p.depset := by
        intro x hx
        rcases List.mem_append.mp hx with hm | hm
        · exact hseen x hm
        · exact ⟨item, hitem, hm⟩
      have hres' : ∀ c ∈ (if item.dir ∈ seen ∨ (false : Bool) = true
          then result ++ [item] else result), ∃ p ∈ inp, c.dir ∈ p.depset := by
        by_cases hs : item.dir ∈ seen
        · rw [if_pos (Or.inl hs)]
          intro c hc'
          rcases List.mem_append.mp hc' with hm | hm
          · exact hres c hm
          · have he : c = item := by simpa using hm
            subst he
            exact hseen c.dir hs
        · rw [if_neg (by simp [hs])]
          exact hres
      by_cases hb : needed.filter (fun x => decide (x ≠ item.dir)) ++ item.depset = []
      · rw [if_pos hb] at hc
        exact hres' c hc
      · rw [if_neg hb] at hc
        exact ih _ _ _ hlrest hseen' hres' c hc
    · rw [if_neg hn] at hc
      by_cases hb : needed = []
      · rw [if_pos hb] at hc
        exact hres c hc
      · rw [if_neg hb] at hc
        exact ih _ _ _ hlrest hseen hres c hc

/-- C5 counterexample: with registry `a : []`, `b : [a]`, roots `{a, b}` and
`includeRoots = false`, the root `a` nevertheless appears in the result,
because `a` is also a dependency of the other root `b` and the loop's
`is_root` test checks prior `seen` membership, not membership in the original
root set. -/
theorem td_root_included_cex :
    transitive_dependencies [compA, compB] ["a", "b"] false false
        = .ok [compA] ∧
    "a" ∈ ["a", "b"] ∧ compA.dir = "a" := by
  exact ⟨by decide, by decide, by decide⟩

/-- C5 (amended): a scanned node in `needed` is appended unless
`includeRoots` is false and its id was not recorded in `seen` as a dependency
of an earlier scanned needed node; consequently, with `includeRoots = false`
every returned component's id is declared as a dependency of some component
of the registry — which permits an original root that is also another root's
dependency to appear in the output. -/
theorem td_false_output_is_dependency (inp : List Component)
    (dirs : List String) (rev : Bool) (res : List Component)
    (h : transitive_dependencies inp dirs false rev = .ok res) :
    ∀ c ∈ res, ∃ p ∈ inp, c.dir ∈ p.depset := by
  unfold transitive_dependencies at h
  cases htopo : toposortComponents inp with
  | error e =>
    rw [htopo] at h
    cases h
  | ok out =>
    rw [htopo] at h
    simp only [] at h
    have hmem : ∀ c ∈ (tdLoop false out.reverse dirs [] []).2,
        ∃ p ∈ inp, c.dir ∈ p.depset := by
      refine tdLoop_false_mem inp out.reverse dirs [] [] ?_ ?_ ?_
      · intro i hi
        exact (toposortComponents_ok inp out htopo).1.mem_iff.mp
          (List.mem_reverse.mp hi)
      · intro x hx
        simp at hx
      · intro c hc
        simp at hc
    by_cases hr : (tdLoop false out.reverse dirs [] []).1 = []
    · rw [if_pos hr] at h
      cases rev with
      | true =>
        simp only [if_pos rfl] at h
        cases h
        exact hmem
      | false =>
        simp only [Bool.false_eq_true, if_neg] at h
        cases h
        intro c hc
        exact hmem c (List.mem_reverse.mp hc)
    · rw [if_neg hr] at h
      cases h

theorem td_false_output_is_dependency_witness :
    transitive_dependencies [compA, compB] ["a", "b"] false false
        = Except.ok [compA] ∧
    ∀ c ∈ [compA], ∃ p ∈ [compA, compB], c.dir ∈ p.depset :=
  ⟨by decide,
    td_false_output_is_dependency [compA, compB] ["a", "b"] false [compA] (by decide)⟩

/-- C7 counterexample: with registry `a : []`, `b : [z]` and `z` absent, the
transitive-dependencies query rooted at `b` does not fail with
`MissingDependencyError(["z"])`: the topological sort runs first and cannot
place `b`, so the run fails with a `CycleError` diagnostic naming `b` and its
unfound dependency `z`. -/
theorem td_missing_dep_cex :
    transitive_dependencies [compA, compBz] ["b"] true false
        = .error (.cycleError [("b", ["z"])]) ∧
    ¬ transitive_dependencies [compA, compBz] ["b"] true false
        = .error (.missingDepError ["z"]) := by
  exact ⟨by decide, by decide⟩

/-- C7 (amended): an operation that touches the closure of a node with a
dependency absent from the registry fails, but with the toposort's
`CycleError` naming the node and its unfound dependency (the sort runs before
the scan and can never place such a node); `MissingDependencyError` arises
instead when a requested root id is absent from the registry. -/
theorem td_missing_dep_behaviour :
    transitive_dependencies [compA, compBz] ["b"] true false
        = .error (.cycleError [("b", ["z"])]) ∧
    transitive_dependencies [compA, compBz] ["b"] false true
        = .error (.cycleError [("b", ["z"])]) ∧
    transitive_dependents [compA, compBz] ["b"] true
        = .error (.cycleError [("b", ["z"])]) ∧
    toposortComponents [compA, compBz]
        = .error (.cycleError [("b", ["z"])]) ∧
    transitive_dependencies [compA] ["z"] false false
        = .error (.missingDepError ["z"]) := by
  exact ⟨by decide, by decide, by decide, by decide, by decide⟩

theorem tdepStep_roots (ir : Bool) (st : List String × List String × List Component)
    (item : Component) :
    (tdepStep ir st item).1 = st.1.filter (fun x => decide (x ≠ item.dir)) := by
  unfold tdepStep
  split
  · rfl
  · split
    · rfl
    · rfl

theorem tdepStep_fold_roots (ir : Bool) :
    ∀ (l : List Component) (r0 s0 : List String) (res0 : List Component),
      (l.foldl (tdepStep ir) (r0, s0, res0)).1
        = r0.filter (fun x => decide (¬ x ∈ l.map Component.dir)) := by
  intro l
  induction l with
  | nil =>
    intro r0 s0 res0
    simp
  | cons item rest ih =>
    intro r0 s0 res0
    simp only [List.foldl_cons]
    have heta : tdepStep ir (r0, s0, res0) item
        = ((tdepStep ir (r0, s0, res0) item).1,
           (tdepStep ir (r0, s0, res0) item).2.1,
           (tdepStep ir (r0, s0, res0) item).2.2) := rfl
    rw [heta, ih, tdepStep_roots, List.filter_filter]
    refine List.filter_congr ?_
    intro x _
    by_cases h1 : x = item.dir <;> by_cases h2 : x ∈ rest.map Component.dir <;>
      simp [h1, h2]

/-- C9: in the transitive-dependents query (with the sort succeeding), the
requested root ids never encountered while scanning the registry are exactly
`dirs` minus the registry's ids; if any exist the query fails with a
`MissingComponentError` naming all of them, and if every requested root is
encountered the query succeeds. -/
theorem dependents_missing_roots (inp : List Component) (dirs : List String)
    (ir : Bool) (out : List Component)
    (htopo : toposortComponents inp = .ok out) :
    ((∃ r ∈ dirs, ¬ r ∈ inp.map Component.dir) →
      ∃ m, transitive_dependents inp dirs ir = .error (.missingComponentError m) ∧
        ∀ x, x ∈ m ↔ x ∈ dirs ∧ ¬ x ∈ inp.map Component.dir) ∧
    ((∀ r ∈ dirs, r ∈ inp.map Component.dir) →
      ∃ res, transitive_dependents inp dirs ir = .ok res) := by
  have hperm := (toposortComponents_ok inp out htopo).1
  have hdirs : ∀ x, x ∈ out.map Component.dir ↔ x ∈ inp.map Component.dir :=
    fun x => (hperm.map Component.dir).mem_iff
  have hroots := tdepStep_fold_roots ir out dirs dirs []
  constructor
  · rintro ⟨r, hr, hrnot⟩
    have hne : (out.foldl (tdepStep ir) (dirs, dirs, [])).1 ≠ [] := by
      rw [hroots]
      intro hemp
      have hmem : r ∈ dirs.filter (fun x => decide (¬ x ∈ out.map Component.dir)) :=
        List.mem_filter.mpr ⟨hr, by simp [hdirs r, hrnot]⟩
      rw [hemp] at hmem
      simp at hmem
    refine ⟨(out.foldl (tdepStep ir) (dirs, dirs, [])).1, ?_, ?_⟩
    · simp only [transitive_dependents, htopo]
      rw [if_neg hne]
    · intro x
      rw [hroots, List.mem_filter]
      simp [hdirs x]
  · intro hall
    have hemp : (out.foldl (tdepStep ir) (dirs, dirs, [])).1 = [] := by
      rw [hroots]
      refine List.eq_nil_iff_forall_not_mem.mpr ?_
      intro x hx
      obtain ⟨hx1, hx2⟩ := List.mem_filter.mp hx
      rw [decide_eq_true_iff, hdirs x] at hx2
      exact hx2 (hall x hx1)
    refine ⟨(out.foldl (tdepStep ir) (dirs, dirs, [])).2.2, ?_⟩
    simp only [transitive_dependents, htopo]
    rw [if_pos hemp]

theorem dependents_missing_roots_witness :
    toposortComponents [compA] = Except.ok [compA] ∧
    (∃ r ∈ ["q"], ¬ r ∈ [compA].map Component.dir) ∧
    (∃ m, transitive_dependents [compA] ["q"] true
        = .error (.missingComponentError m) ∧
      ∀ x, x ∈ m ↔ x ∈ ["q"] ∧ ¬ x ∈ [compA].map Component.dir) :=
  ⟨by decide, by decide,
    (dependents_missing_roots [compA] ["q"] true [compA] (by decide)).1 (by decide)⟩
